import Mathlib

/-!
Verification of the wasm-sorter compute-kernel library
(src/wasm-sorter/src/lib.rs) against its natural-language specification.

Shallow embedding conventions:
* JavaScript values crossing the host boundary are modelled by the inductive
  type `JsVal`; `JsValue::as_f64` never coerces, so it returns `some` exactly
  on numbers.
* Rust `f64` values are modelled by `FloatVal`: either NaN or an exact
  rational.  All f64 operations used by the claims under scrutiny are either
  exact in IEEE double precision (comparisons of small integers, arithmetic
  on 0) or the claims are independent of rounding (loop bounds, lengths,
  permutations), so exact rationals are a faithful carrier.  Infinities are
  not needed by any claim and are omitted.
* Machine integers (`u32`, `u64`) are `Nat` with explicit `% 2 ^ 32` /
  `% 2 ^ 64` where the source relies on wrapping; release-mode (wasm)
  wrapping semantics are used for the unchecked `+`/`*` in `prime_sieve`.
* `Result<T, JsValue>` is `Except JsVal T`.
* `console_log!` emission is presentational only (spec §6) and is dropped.
* Rust's `sort_by` (a stable comparison sort driven by an `Ordering`
  comparator) is modelled by the stable insertion sort `sortBy` below; the
  claims under scrutiny only use that the result is a permutation and, for
  consistent comparators, sorted.
-/

/-- Model of an IEEE f64 as it is used by the sorters: NaN or a finite
value carried exactly as a rational. -/
inductive FloatVal : Type where
  | nan : FloatVal
  | fin : Rat → FloatVal
deriving DecidableEq, Repr

/-- Model of a JS value crossing the wasm-bindgen boundary: a number, a
string, or any other opaque value identified by a tag. -/
inductive JsVal : Type where
  | num : FloatVal → JsVal
  | str : String → JsVal
  | obj : Nat → JsVal
deriving DecidableEq, Repr

/-- `JsValue::as_f64`: `some` exactly on JS numbers, no coercion. -/
def asF64 : JsVal → Option FloatVal
  | .num f => some f
  | _ => none

/-- Comparison of two rationals as a three-way `Ordering`. -/
def ratCmp (a b : Rat) : Ordering :=
  if a < b then .lt else if b < a then .gt else .eq

/-- `f64::partial_cmp`: `none` whenever either side is NaN. -/
def floatCmp : FloatVal → FloatVal → Option Ordering
  | .fin a, .fin b => some (ratCmp a b)
  | _, _ => none

/-- Insert `a` into `l`, keeping `a` before the first element it does not
compare `Ordering.gt` against (the insertion step of a stable comparison
sort). -/
def insertBy (c : α → α → Ordering) (a : α) : List α → List α
  | [] => [a]
  | b :: l => if c a b = .gt then b :: insertBy c a l else a :: b :: l

/-- Stable comparison sort driven by an `Ordering`-valued comparator;
models Rust's `sort_by`. -/
def sortBy (c : α → α → Ordering) : List α → List α
  | [] => []
  | a :: l => insertBy c a (sortBy c l)

/-- Interpretation of one callback invocation in `sort_array`
(lib.rs lines 34-50): an `Ok` numeric result is compared against 0, any
non-numeric `Ok` result and any callback error collapse to `Equal`. -/
def interpretCb (result : Except JsVal JsVal) : Ordering :=
  match result with
  | .ok val =>
    match asF64 val with
    | some (.fin q) => if q < 0 then .lt else if 0 < q then .gt else .eq
    | some .nan => .eq
    | none => .eq
  | .error _ => .eq

/-- `sort_array` (lib.rs lines 21-64): pair each element with its original
index, sort the pairs with the host callback driven comparator, return the
elements; the function always returns `Ok`. -/
def sortArray (array : List JsVal) (predicate : JsVal → JsVal → Except JsVal JsVal) :
    Except JsVal (List JsVal) :=
  let items : List (JsVal × Nat) := array.enum.map (fun p => (p.2, p.1))
  let sorted := sortBy (fun a b => interpretCb (predicate a.1 b.1)) items
  Except.ok (sorted.map (fun p => p.1))

/-- `sort_numbers` (lib.rs lines 67-93): keep exactly the numeric entries,
then sort by `partial_cmp` with incomparable (NaN) pairs collapsed to
`Equal`; `ascending` flips the argument order fed to `partial_cmp`. -/
def sortNumbers (numbers : List JsVal) (ascending : Bool) : List FloatVal :=
  let nums := numbers.filterMap asF64
  if ascending then
    sortBy (fun a b => (floatCmp a b).getD .eq) nums
  else
    sortBy (fun a b => (floatCmp b a).getD .eq) nums

theorem insertBy_perm (c : α → α → Ordering) (a : α) (l : List α) :
    List.Perm (insertBy c a l) (a :: l) := by
  induction l with
  | nil => simp [insertBy]
  | cons b l ih =>
    simp only [insertBy]
    by_cases h : c a b = .gt
    · simp only [h, if_pos rfl]
      exact ((ih.cons b).trans (List.Perm.swap a b l)).symm.symm
    · simp [h]

theorem sortBy_perm (c : α → α → Ordering) (l : List α) :
    List.Perm (sortBy c l) l := by
  induction l with
  | nil => simp [sortBy]
  | cons a l ih =>
    exact (insertBy_perm c a (sortBy c l)).trans (ih.cons a)

theorem mem_insertBy {c : α → α → Ordering} {a x : α} {l : List α}
    (h : x ∈ insertBy c a l) : x = a ∨ x ∈ l := by
  have := (insertBy_perm c a l).mem_iff.mp h
  simpa using this

theorem insertBy_pairwise {c : α → α → Ordering} (P : α → Prop)
    (hswap : ∀ x y, P x → P y → c x y = .gt → c y x ≠ .gt)
    (htrans : ∀ x y z, P x → P y → P z → c x y ≠ .gt → c y z ≠ .gt → c x z ≠ .gt)
    {a : α} {l : List α} (hPa : P a) (hPl : ∀ x ∈ l, P x)
    (hs : l.Pairwise (fun x y => c x y ≠ .gt)) :
    (insertBy c a l).Pairwise (fun x y => c x y ≠ .gt) := by
  induction l with
  | nil => simp [insertBy]
  | cons b l ih =>
    rcases List.pairwise_cons.mp hs with ⟨hb, hl⟩
    simp only [insertBy]
    by_cases h : c a b = .gt
    · rw [if_pos h]
      refine List.pairwise_cons.mpr ⟨?_, ih (fun x hx => hPl x (List.mem_cons_of_mem b hx)) hl⟩
      intro x hx
      rcases mem_insertBy hx with rfl | hx
      · exact hswap _ _ hPa (hPl b (List.mem_cons_self b l)) h
      · exact hb x hx
    · rw [if_neg h]
      refine List.pairwise_cons.mpr ⟨?_, hs⟩
      intro x hx
      rcases List.mem_cons.mp hx with rfl | hx
      · exact h
      · exact htrans a b x hPa (hPl b (List.mem_cons_self b l))
          (hPl x (List.mem_cons_of_mem b hx)) h (hb x hx)

theorem sortBy_pairwise {c : α → α → Ordering} (P : α → Prop)
    (hswap : ∀ x y, P x → P y → c x y = .gt → c y x ≠ .gt)
    (htrans : ∀ x y z, P x → P y → P z → c x y ≠ .gt → c y z ≠ .gt → c x z ≠ .gt)
    {l : List α} (hPl : ∀ x ∈ l, P x) :
    (sortBy c l).Pairwise (fun x y => c x y ≠ .gt) := by
  induction l with
  | nil => simp [sortBy]
  | cons a l ih =>
    exact insertBy_pairwise P hswap htrans (hPl a (List.mem_cons_self a l))
      (fun x hx => hPl x (List.mem_cons_of_mem a ((sortBy_perm c l).mem_iff.mp hx)))
      (ih (fun x hx => hPl x (List.mem_cons_of_mem a hx)))

theorem sortArray_ok_perm (array : List JsVal)
    (predicate : JsVal → JsVal → Except JsVal JsVal) :
    ∃ out, sortArray array predicate = Except.ok out ∧ List.Perm out array := by
  refine ⟨_, rfl, ?_⟩
  have h2 := (sortBy_perm (fun a b : JsVal × Nat => interpretCb (predicate a.1 b.1))
    (array.enum.map (fun p => (p.2, p.1)))).map (fun p : JsVal × Nat => p.1)
  have h3 : (array.enum.map (fun p => (p.2, p.1))).map (fun p : JsVal × Nat => p.1)
      = array := by
    rw [List.map_map]
    exact List.enum_map_snd array
  rw [h3] at h2
  exact h2

/-- C1: for every input sequence and every comparison callback, `sort_array`
returns `Ok` of a permutation of its input — same length, same multiset of
elements, nothing dropped, duplicated or fabricated — even when the callback
fails on some or all comparisons. -/
theorem sortArray_permutation (array : List JsVal)
    (predicate : JsVal → JsVal → Except JsVal JsVal) :
    ∃ out, sortArray array predicate = Except.ok out ∧
      List.Perm out array ∧ out.length = array.length := by
  rcases sortArray_ok_perm array predicate with ⟨out, hok, hperm⟩
  exact ⟨out, hok, hperm, hperm.length_eq⟩

/-- C2: each callback invocation in `sort_array` is interpreted as: numeric
result `< 0` is `Less`, `> 0` is `Greater`, and `0`, a non-numeric value, or
a raised callback failure all count as `Equal`; a failing callback never
propagates — the sort always completes with an `Ok` result. -/
theorem sortArray_callback_interpretation :
    (∀ e : JsVal, interpretCb (Except.error e) = .eq) ∧
    (∀ (v : JsVal) (q : Rat), asF64 v = some (.fin q) →
      (q < 0 → interpretCb (Except.ok v) = .lt) ∧
      (0 < q → interpretCb (Except.ok v) = .gt) ∧
      (q = 0 → interpretCb (Except.ok v) = .eq)) ∧
    (∀ v : JsVal, asF64 v = none → interpretCb (Except.ok v) = .eq) ∧
    (∀ (array : List JsVal) (predicate : JsVal → JsVal → Except JsVal JsVal),
      ∃ out, sortArray array predicate = Except.ok out) := by
  refine ⟨fun e => rfl, ?_, ?_, ?_⟩
  · intro v q h
    refine ⟨fun hlt => ?_, fun hgt => ?_, fun h0 => ?_⟩
    · simp [interpretCb, h, hlt]
    · have : ¬ q < 0 := by linarith
      simp [interpretCb, h, this, hgt]
    · subst h0
      simp [interpretCb, h]
  · intro v h
    simp [interpretCb, h]
  · intro array predicate
    exact ⟨_, rfl⟩

theorem sortArray_callback_interpretation_witness :
    interpretCb (Except.ok (JsVal.num (.fin (-1)))) = .lt ∧
    interpretCb (Except.ok (JsVal.num (.fin 2))) = .gt ∧
    interpretCb (Except.ok (JsVal.num (.fin 0))) = .eq ∧
    interpretCb (Except.ok (JsVal.str "x")) = .eq := by
  refine ⟨(sortArray_callback_interpretation.2.1 (JsVal.num (.fin (-1))) (-1) rfl).1 (by norm_num),
    (sortArray_callback_interpretation.2.1 (JsVal.num (.fin 2)) 2 rfl).2.1 (by norm_num),
    (sortArray_callback_interpretation.2.1 (JsVal.num (.fin 0)) 0 rfl).2.2 rfl,
    sortArray_callback_interpretation.2.2.1 (JsVal.str "x") rfl⟩

/-- Numeric order on modelled f64 values, defined only between finite
values. -/
def leNum : FloatVal → FloatVal → Prop
  | .fin a, .fin b => a ≤ b
  | _, _ => False

theorem ratCmp_ne_gt {a b : Rat} : ratCmp a b ≠ .gt ↔ a ≤ b := by
  unfold ratCmp
  split_ifs with h1 h2
  · simp [h1.le]
  · simp [not_le.mpr h2]
  · simp [le_of_not_lt h2]

theorem ratCmp_eq_gt {a b : Rat} : ratCmp a b = .gt ↔ b < a := by
  unfold ratCmp
  split_ifs with h1 h2
  · simp [not_lt.mpr h1.le]
  · simp [h2]
  · simp [not_lt.mpr (le_of_not_lt h2)]

theorem sortNumbers_ascending_swap : ∀ x y : FloatVal, x ≠ FloatVal.nan →
    y ≠ FloatVal.nan → (floatCmp x y).getD .eq = .gt → (floatCmp y x).getD .eq ≠ .gt := by
  intro x y hx hy h
  cases x with
  | nan => exact absurd rfl hx
  | fin a =>
    cases y with
    | nan => exact absurd rfl hy
    | fin b =>
      simp only [floatCmp, Option.getD_some] at h ⊢
      rw [ratCmp_eq_gt] at h
      rw [ratCmp_ne_gt]
      exact h.le

theorem sortNumbers_ascending_trans : ∀ x y z : FloatVal, x ≠ FloatVal.nan →
    y ≠ FloatVal.nan → z ≠ FloatVal.nan → (floatCmp x y).getD .eq ≠ .gt →
    (floatCmp y z).getD .eq ≠ .gt → (floatCmp x z).getD .eq ≠ .gt := by
  intro x y z hx hy hz hxy hyz
  cases x with
  | nan => exact absurd rfl hx
  | fin a =>
    cases y with
    | nan => exact absurd rfl hy
    | fin b =>
      cases z with
      | nan => exact absurd rfl hz
      | fin d =>
        simp only [floatCmp, Option.getD_some, ratCmp_ne_gt] at hxy hyz ⊢
        exact hxy.trans hyz

theorem sortNumbers_descending_swap : ∀ x y : FloatVal, x ≠ FloatVal.nan →
    y ≠ FloatVal.nan → (floatCmp y x).getD .eq = .gt → (floatCmp x y).getD .eq ≠ .gt := by
  intro x y hx hy h
  exact sortNumbers_ascending_swap y x hy hx h

theorem sortNumbers_descending_trans : ∀ x y z : FloatVal, x ≠ FloatVal.nan →
    y ≠ FloatVal.nan → z ≠ FloatVal.nan → (floatCmp y x).getD .eq ≠ .gt →
    (floatCmp z y).getD .eq ≠ .gt → (floatCmp z x).getD .eq ≠ .gt := by
  intro x y z hx hy hz hxy hyz
  exact sortNumbers_ascending_trans z y x hz hy hx hyz hxy

/-- C9: `sort_numbers` first drops every non-numeric entry (substituting
nothing for them), then returns the remaining numeric entries ordered by
numeric value — ascending when `ascending` is true, descending otherwise —
with NaN/unordered pairs comparing as equal rather than crashing; and
`sort_numbers([3,1,"x",2], true) = [1,2,3]`. -/
theorem sortNumbers_correct :
    (∀ (values : List JsVal) (ascending : Bool),
      List.Perm (sortNumbers values ascending) (values.filterMap asF64)) ∧
    (∀ values : List JsVal, (∀ x ∈ values.filterMap asF64, x ≠ FloatVal.nan) →
      (sortNumbers values true).Pairwise leNum ∧
      (sortNumbers values false).Pairwise (fun a b => leNum b a)) ∧
    (∀ x, (floatCmp FloatVal.nan x).getD .eq = .eq ∧
      (floatCmp x FloatVal.nan).getD .eq = .eq) ∧
    sortNumbers [JsVal.num (.fin 3), JsVal.num (.fin 1), JsVal.str "x", JsVal.num (.fin 2)]
      true = [.fin 1, .fin 2, .fin 3] := by
  refine ⟨?_, ?_, ?_, by decide⟩
  · intro values ascending
    cases ascending
    · exact sortBy_perm _ _
    · exact sortBy_perm _ _
  · intro values hnn
    constructor
    · have hp := sortBy_pairwise (fun x : FloatVal => x ≠ FloatVal.nan)
        sortNumbers_ascending_swap sortNumbers_ascending_trans hnn
      have hmem : ∀ x ∈ sortBy (fun a b : FloatVal => (floatCmp a b).getD .eq)
          (values.filterMap asF64), x ≠ FloatVal.nan :=
        fun x hx => hnn x ((sortBy_perm _ _).mem_iff.mp hx)
      show (sortBy (fun a b : FloatVal => (floatCmp a b).getD .eq)
        (values.filterMap asF64)).Pairwise leNum
      refine hp.imp_of_mem ?_
      intro a b ha hb hab
      have ha2 := hmem a ha
      have hb2 := hmem b hb
      cases a with
      | nan => exact absurd rfl ha2
      | fin x =>
        cases b with
        | nan => exact absurd rfl hb2
        | fin y =>
          simp only [floatCmp, Option.getD_some, ratCmp_ne_gt] at hab
          exact hab
    · have hp := sortBy_pairwise (fun x : FloatVal => x ≠ FloatVal.nan)
        sortNumbers_descending_swap sortNumbers_descending_trans hnn
      have hmem : ∀ x ∈ sortBy (fun a b : FloatVal => (floatCmp b a).getD .eq)
          (values.filterMap asF64), x ≠ FloatVal.nan :=
        fun x hx => hnn x ((sortBy_perm _ _).mem_iff.mp hx)
      show (sortBy (fun a b : FloatVal => (floatCmp b a).getD .eq)
        (values.filterMap asF64)).Pairwise (fun a b => leNum b a)
      refine hp.imp_of_mem ?_
      intro a b ha hb hab
      have ha2 := hmem a ha
      have hb2 := hmem b hb
      cases a with
      | nan => exact absurd rfl ha2
      | fin x =>
        cases b with
        | nan => exact absurd rfl hb2
        | fin y =>
          simp only [floatCmp, Option.getD_some, ratCmp_ne_gt] at hab
          exact hab
  · intro x
    refine ⟨rfl, ?_⟩
    cases x <;> rfl

theorem sortNumbers_correct_witness :
    (sortNumbers [JsVal.num (.fin 3), JsVal.num (.fin 1), JsVal.str "x",
      JsVal.num (.fin 2)] true).Pairwise leNum ∧
    (sortNumbers [JsVal.num (.fin 3), JsVal.num (.fin 1), JsVal.str "x",
      JsVal.num (.fin 2)] false).Pairwise (fun a b => leNum b a) :=
  sortNumbers_correct.2.1 [JsVal.num (.fin 3), JsVal.num (.fin 1), JsVal.str "x",
    JsVal.num (.fin 2)] (by decide)

/-- The escape-time loop of `mandelbrot_iterations` (lib.rs lines 195-208):
`rem` is the number of still-allowed iterations (`max_iterations - iteration`),
so the `iteration < max_iterations` guard is `0 < rem`. -/
def mandelLoop (cRe cIm : Rat) : Nat → Rat → Rat → Nat → Nat
  | 0, _, _, iteration => iteration
  | rem + 1, zRe, zIm, iteration =>
    if zRe * zRe + zIm * zIm ≤ 4 then
      mandelLoop cRe cIm rem (zRe * zRe - zIm * zIm + cRe) (2 * zRe * zIm + cIm)
        (iteration + 1)
    else iteration

/-- `mandelbrot_iterations` (lib.rs lines 195-208): iterate z ← z² + c from
z = 0, counting steps while |z|² ≤ 4, for at most `max_iterations` steps. -/
def mandelbrotIterations (cRe cIm : Rat) (maxIterations : Nat) : Nat :=
  mandelLoop cRe cIm maxIterations 0 0 0

/-- The exact trajectory of the z ← z² + c recurrence from z = 0. -/
def mandelTraj (cRe cIm : Rat) : Nat → Rat × Rat
  | 0 => (0, 0)
  | k + 1 =>
    let z := mandelTraj cRe cIm k
    (z.1 * z.1 - z.2 * z.2 + cRe, 2 * z.1 * z.2 + cIm)

/-- Squared magnitude of a complex number given as a real/imaginary pair. -/
def normSq (p : Rat × Rat) : Rat := p.1 * p.1 + p.2 * p.2

theorem mandelLoop_spec (cRe cIm : Rat) : ∀ (rem n : Nat),
    n ≤ mandelLoop cRe cIm rem (mandelTraj cRe cIm n).1 (mandelTraj cRe cIm n).2 n ∧
    mandelLoop cRe cIm rem (mandelTraj cRe cIm n).1 (mandelTraj cRe cIm n).2 n ≤ n + rem ∧
    (∀ k, n ≤ k → k < mandelLoop cRe cIm rem (mandelTraj cRe cIm n).1
      (mandelTraj cRe cIm n).2 n → normSq (mandelTraj cRe cIm k) ≤ 4) ∧
    (mandelLoop cRe cIm rem (mandelTraj cRe cIm n).1 (mandelTraj cRe cIm n).2 n < n + rem →
      4 < normSq (mandelTraj cRe cIm
        (mandelLoop cRe cIm rem (mandelTraj cRe cIm n).1 (mandelTraj cRe cIm n).2 n))) := by
  intro rem
  induction rem with
  | zero =>
    intro n
    refine ⟨le_refl n, by simp [mandelLoop], ?_, ?_⟩
    · intro k hk hk2
      simp only [mandelLoop] at hk2
      omega
    · intro h
      simp only [mandelLoop] at h ⊢
      omega
  | succ rem ih =>
    intro n
    by_cases hesc : normSq (mandelTraj cRe cIm n) ≤ 4
    · have hstep : mandelLoop cRe cIm (rem + 1) (mandelTraj cRe cIm n).1
          (mandelTraj cRe cIm n).2 n
          = mandelLoop cRe cIm rem (mandelTraj cRe cIm (n + 1)).1
            (mandelTraj cRe cIm (n + 1)).2 (n + 1) := by
        simp only [mandelLoop, mandelTraj]
        have hc : (mandelTraj cRe cIm n).1 * (mandelTraj cRe cIm n).1 +
            (mandelTraj cRe cIm n).2 * (mandelTraj cRe cIm n).2 ≤ 4 := hesc
        rw [if_pos hc]
      rcases ih (n + 1) with ⟨h1, h2, h3, h4⟩
      rw [hstep]
      refine ⟨by omega, by omega, ?_, ?_⟩
      · intro k hk hk2
        rcases Nat.eq_or_lt_of_le hk with rfl | hk
        · exact hesc
        · exact h3 k hk hk2
      · intro h
        exact h4 (by omega)
    · have hstop : mandelLoop cRe cIm (rem + 1) (mandelTraj cRe cIm n).1
          (mandelTraj cRe cIm n).2 n = n := by
        simp only [mandelLoop]
        have hc : ¬ (mandelTraj cRe cIm n).1 * (mandelTraj cRe cIm n).1 +
            (mandelTraj cRe cIm n).2 * (mandelTraj cRe cIm n).2 ≤ 4 := hesc
        rw [if_neg hc]
      rw [hstop]
      refine ⟨le_refl n, by omega, ?_, fun _ => lt_of_not_le hesc⟩
      intro k hk hk2
      omega

theorem mandelTraj_zero (k : Nat) : mandelTraj 0 0 k = (0, 0) := by
  induction k with
  | zero => rfl
  | succ k ih => simp [mandelTraj, ih]

/-- C5: for every c and max_iterations, `mandelbrot_iterations` runs the
z ← z² + c recurrence from z = 0 for at most `max_iterations` steps,
returning the number of steps taken while |z|² ≤ 4 (the result is always
≤ max_iterations, every counted step had |z|² ≤ 4, and an early stop means
the escape test just failed); in particular
`mandelbrot_iterations(0, 0, 100) = 100`. -/
theorem mandelbrotIterations_correct (cRe cIm : Rat) (maxIterations : Nat) :
    mandelbrotIterations cRe cIm maxIterations ≤ maxIterations ∧
    (∀ k, k < mandelbrotIterations cRe cIm maxIterations →
      normSq (mandelTraj cRe cIm k) ≤ 4) ∧
    (mandelbrotIterations cRe cIm maxIterations < maxIterations →
      4 < normSq (mandelTraj cRe cIm (mandelbrotIterations cRe cIm maxIterations))) ∧
    mandelbrotIterations 0 0 100 = 100 := by
  have h := mandelLoop_spec cRe cIm maxIterations 0
  rcases h with ⟨h1, h2, h3, h4⟩
  refine ⟨by simpa using h2, fun k hk => h3 k (Nat.zero_le k) hk, by simpa using h4, ?_⟩
  have h0 := mandelLoop_spec 0 0 100 0
  rcases h0 with ⟨g1, g2, g3, g4⟩
  have hz : ∀ k, normSq (mandelTraj 0 0 k) = 0 := by
    intro k
    rw [mandelTraj_zero k]
    simp [normSq]
  by_contra hne
  have hlt : mandelbrotIterations 0 0 100 < 100 := by
    have := g2
    simp only [Nat.zero_add] at this
    exact lt_of_le_of_ne this hne
  have := g4 (by simpa using hlt)
  rw [hz] at this
  norm_num at this

theorem mandelbrotIterations_correct_witness :
    mandelbrotIterations 0 0 100 ≤ 100 ∧ mandelbrotIterations 0 0 100 = 100 :=
  ⟨(mandelbrotIterations_correct 0 0 100).1, (mandelbrotIterations_correct 0 0 100).2.2.2⟩

/-- `mandelbrot_set` (lib.rs lines 211-239): row-major raster; each pixel is
mapped through the affine transform to a complex coordinate and handed to
the scalar kernel.  Division is exact rational division (the length claim is
independent of f64 rounding; Rust division by zoom = 0 produces infinities
where Lean produces 0, neither of which affects the raster shape). -/
def mandelbrotSet (width height maxIterations : Nat) (zoom centerX centerY : Rat) :
    List Nat :=
  (List.range height).flatMap (fun y =>
    (List.range width).map (fun x =>
      mandelbrotIterations
        (((x : Rat) - (width : Rat) / 2) / ((width : Rat) / 4) / zoom + centerX)
        (((y : Rat) - (height : Rat) / 2) / ((height : Rat) / 4) / zoom + centerY)
        maxIterations))

/-- C6: the raster returned by `mandelbrot_set` always has length exactly
width·height (row-major, one escape count per pixel), including width = 0 or
height = 0, in which case it is empty. -/
theorem mandelbrotSet_length (width height maxIterations : Nat)
    (zoom centerX centerY : Rat) :
    (mandelbrotSet width height maxIterations zoom centerX centerY).length
      = width * height := by
  simp [mandelbrotSet, List.flatMap, Function.comp_def, Nat.mul_comm]

/-- One LCG state update of `monte_carlo_pi` (lib.rs lines 152, 155):
`state * 1103515245 + 12345` with 64-bit wrapping. -/
def lcg (s : Nat) : Nat := (s * 1103515245 + 12345) % 2 ^ 64

/-- Map an LCG state to a coordinate in [-1, 1] (lib.rs lines 153, 156):
`(state % 2147483647) / 2147483647 * 2 - 1`, with the f64 arithmetic
modelled exactly. -/
def lcgToUnit (s : Nat) : Rat := ((s % 2147483647 : Nat) : Rat) / 2147483647 * 2 - 1

/-- The sampling loop of `monte_carlo_pi` (lib.rs lines 150-182): per
iteration two LCG draws give (x, y); the point counts as inside iff
x² + y² ≤ 1.  The debug/progress logging in the loop touches no
computational state. -/
def mcLoop : Nat → Nat → Nat → Nat
  | 0, _, inside => inside
  | k + 1, s, inside =>
    let s1 := lcg s
    let x := lcgToUnit s1
    let s2 := lcg s1
    let y := lcgToUnit s2
    mcLoop k s2 (if x * x + y * y ≤ 1 then inside + 1 else inside)

/-- `monte_carlo_pi` (lib.rs lines 133-192): seed 12345, and result
`4 * inside / iterations` (0 when iterations = 0). -/
def monteCarloPi (iterations : Nat) : Rat :=
  if iterations = 0 then 0
  else 4 * (mcLoop iterations 12345 0 : Rat) / (iterations : Rat)

/-- The LCG state after k updates from the fixed seed 12345. -/
def lcgState : Nat → Nat
  | 0 => 12345
  | k + 1 => lcg (lcgState k)

/-- The k-th sampled point, from LCG draws 2k+1 and 2k+2 (modelled from the
spec's description of the sampling procedure, to compare against the
source-derived loop). -/
def mcPoint (k : Nat) : Rat × Rat :=
  (lcgToUnit (lcgState (2 * k + 1)), lcgToUnit (lcgState (2 * k + 2)))

/-- Inside-the-unit-circle test for a sampled point. -/
def insideBool (p : Rat × Rat) : Bool := decide (p.1 * p.1 + p.2 * p.2 ≤ 1)

/-- How many of the first n sampled points fall inside the unit circle. -/
def mcInsideCount (n : Nat) : Nat :=
  (List.range n).countP (fun k => insideBool (mcPoint k))

theorem mcLoop_eq : ∀ n m c : Nat, mcLoop n (lcgState (2 * m)) c
    = c + (List.range n).countP (fun j => insideBool (mcPoint (m + j))) := by
  intro n
  induction n with
  | zero => intro m c; simp [mcLoop]
  | succ n ih =>
    intro m c
    have hstep : mcLoop (n + 1) (lcgState (2 * m)) c
        = mcLoop n (lcgState (2 * (m + 1)))
          (if insideBool (mcPoint m) then c + 1 else c) := by
      have h2 : 2 * (m + 1) = 2 * m + 1 + 1 := by ring
      rw [h2]
      simp only [mcLoop, lcgState, mcPoint, insideBool]
      by_cases hin : lcgToUnit (lcg (lcgState (2 * m))) * lcgToUnit (lcg (lcgState (2 * m)))
          + lcgToUnit (lcg (lcg (lcgState (2 * m)))) * lcgToUnit (lcg (lcg (lcgState (2 * m)))) ≤ 1
      · rw [if_pos hin, if_pos (by simpa using hin)]
      · rw [if_neg hin, if_neg (by simpa using hin)]
    rw [hstep, ih (m + 1)]
    rw [List.range_succ_eq_map, List.countP_cons, List.countP_map]
    have hcomp : ((fun j => insideBool (mcPoint (m + j))) ∘ Nat.succ)
        = fun j => insideBool (mcPoint (m + 1 + j)) := by
      funext j
      show insideBool (mcPoint (m + Nat.succ j)) = insideBool (mcPoint (m + 1 + j))
      have harg : m + Nat.succ j = m + 1 + j := by omega
      rw [harg]
    rw [hcomp]
    simp only [Nat.add_zero]
    by_cases hin : insideBool (mcPoint m) = true
    · rw [if_pos hin, if_pos hin]
      omega
    · rw [if_neg hin, if_neg hin]
      omega

/-- C7: `monte_carlo_pi(0) = 0`, and for every N > 0 the result is exactly
`4·inside/N`, where inside counts the points (x, y) — two draws per
iteration from the LCG seeded with 12345, state ← state·1103515245 + 12345
with 64-bit wrapping, mapped through `% 2147483647` into [-1, 1] — with
x² + y² ≤ 1. -/
theorem monteCarloPi_correct :
    monteCarloPi 0 = 0 ∧
    (∀ n : Nat, 0 < n → monteCarloPi n = 4 * (mcInsideCount n : Rat) / (n : Rat)) ∧
    (∀ k, mcPoint k = (lcgToUnit (lcgState (2 * k + 1)), lcgToUnit (lcgState (2 * k + 2)))) ∧
    lcgState 0 = 12345 ∧
    (∀ k, lcgState (k + 1) = (lcgState k * 1103515245 + 12345) % 2 ^ 64) := by
  refine ⟨rfl, ?_, fun k => rfl, rfl, fun k => rfl⟩
  intro n hn
  have h0 := mcLoop_eq n 0 0
  simp only [Nat.mul_zero, Nat.zero_add] at h0
  have hs : lcgState 0 = 12345 := rfl
  rw [hs] at h0
  unfold monteCarloPi
  rw [if_neg (Nat.pos_iff_ne_zero.mp hn)]
  rw [h0]
  rfl

theorem monteCarloPi_correct_witness :
    monteCarloPi 3 = 4 * (mcInsideCount 3 : Rat) / (3 : Rat) :=
  monteCarloPi_correct.2.1 3 (by decide)

/-- The extension loop of `fibonacci_sequence` (lib.rs lines 323-328):
extend the list `cnt` more times; each new term is the 64-bit wrapping sum
of `fib[i-1]` and `fib[i-2]`, where the loop index i equals the current
length of the list. -/
def fibLoop : Nat → List Nat → List Nat
  | 0, fib => fib
  | cnt + 1, fib =>
    fibLoop cnt
      (fib ++ [(fib.getD (fib.length - 1) 0 + fib.getD (fib.length - 2) 0) % 2 ^ 64])

/-- `fibonacci_sequence` (lib.rs lines 307-331): n = 0 gives [], n = 1
gives [0], otherwise start from [0, 1] and extend n - 2 times. -/
def fibonacciSequence (n : Nat) : List Nat :=
  if n = 0 then []
  else if n = 1 then [0]
  else fibLoop (n - 2) [0, 1]

/-- Wrapping Fibonacci numbers: 0, 1, then each term the sum of the two
previous terms modulo 2^64. -/
def fibW : Nat → Nat
  | 0 => 0
  | 1 => 1
  | k + 2 => (fibW k + fibW (k + 1)) % 2 ^ 64

theorem map_range_getD (f : Nat → Nat) (m i : Nat) (h : i < m) :
    ((List.range m).map f).getD i 0 = f i := by
  rw [List.getD_eq_getElem?_getD, List.getElem?_map, List.getElem?_range h]
  rfl

theorem fibLoop_eq : ∀ cnt m : Nat, 2 ≤ m →
    fibLoop cnt ((List.range m).map fibW) = (List.range (m + cnt)).map fibW := by
  intro cnt
  induction cnt with
  | zero => intro m hm; simp [fibLoop]
  | succ cnt ih =>
    intro m hm
    have hlen : ((List.range m).map fibW).length = m := by simp
    have hnew : ((List.range m).map fibW).getD (((List.range m).map fibW).length - 1) 0
        + ((List.range m).map fibW).getD (((List.range m).map fibW).length - 2) 0
        = fibW (m - 1) + fibW (m - 2) := by
      rw [hlen, map_range_getD fibW m (m - 1) (by omega),
        map_range_getD fibW m (m - 2) (by omega)]
    have hterm : (fibW (m - 1) + fibW (m - 2)) % 2 ^ 64 = fibW m := by
      rcases Nat.exists_eq_add_of_le hm with ⟨k, rfl⟩
      have h1 : 2 + k - 1 = k + 1 := by omega
      have h2 : 2 + k - 2 = k := by omega
      have h3 : 2 + k = k + 2 := by omega
      rw [h1, h2, h3]
      simp only [fibW]
      rw [Nat.add_comm]
    have happ : (List.range m).map fibW ++ [fibW m] = (List.range (m + 1)).map fibW := by
      rw [List.range_succ, List.map_append]
      rfl
    simp only [fibLoop]
    rw [hnew, hterm, happ, ih (m + 1) (by omega)]
    congr 1
    congr 1
    omega

theorem fibonacciSequence_eq (n : Nat) :
    fibonacciSequence n = (List.range n).map fibW := by
  unfold fibonacciSequence
  by_cases h0 : n = 0
  · subst h0; rfl
  · rw [if_neg h0]
    by_cases h1 : n = 1
    · subst h1; rfl
    · rw [if_neg h1]
      have h2 : 2 ≤ n := by omega
      have hinit : ([0, 1] : List Nat) = (List.range 2).map fibW := rfl
      rw [hinit, fibLoop_eq (n - 2) 2 (le_refl 2)]
      congr 1
      congr 1
      omega

/-- C8: `fibonacci_sequence(n)` returns exactly n terms: the first two are
0 and 1 (clipped when n < 2), and every later term is the 64-bit wrapping
sum of the previous two; `fibonacci_sequence(0) = []`,
`fibonacci_sequence(1) = [0]`,
`fibonacci_sequence(10) = [0,1,1,2,3,5,8,13,21,34]`. -/
theorem fibonacciSequence_correct :
    (∀ n, (fibonacciSequence n).length = n) ∧
    (∀ n, 1 ≤ n → (fibonacciSequence n).getD 0 0 = 0) ∧
    (∀ n, 2 ≤ n → (fibonacciSequence n).getD 1 0 = 1) ∧
    (∀ n i, 2 ≤ i → i < n → (fibonacciSequence n).getD i 0
      = ((fibonacciSequence n).getD (i - 2) 0
        + (fibonacciSequence n).getD (i - 1) 0) % 2 ^ 64) ∧
    fibonacciSequence 0 = [] ∧ fibonacciSequence 1 = [0] ∧
    fibonacciSequence 10 = [0, 1, 1, 2, 3, 5, 8, 13, 21, 34] := by
  refine ⟨?_, ?_, ?_, ?_, by decide, by decide, by decide⟩
  · intro n
    rw [fibonacciSequence_eq]
    simp
  · intro n hn
    rw [fibonacciSequence_eq, map_range_getD fibW n 0 (by omega)]
    rfl
  · intro n hn
    rw [fibonacciSequence_eq, map_range_getD fibW n 1 (by omega)]
    rfl
  · intro n i h2 hn
    rw [fibonacciSequence_eq, map_range_getD fibW n i (by omega),
      map_range_getD fibW n (i - 2) (by omega), map_range_getD fibW n (i - 1) (by omega)]
    rcases Nat.exists_eq_add_of_le h2 with ⟨k, rfl⟩
    have ha : 2 + k - 2 = k := by omega
    have hb : 2 + k - 1 = k + 1 := by omega
    have hc : 2 + k = k + 2 := by omega
    rw [ha, hb, hc]
    simp only [fibW]

theorem fibonacciSequence_correct_witness :
    (fibonacciSequence 10).getD 0 0 = 0 ∧ (fibonacciSequence 10).getD 1 0 = 1 ∧
    (fibonacciSequence 10).getD 5 0
      = ((fibonacciSequence 10).getD 3 0 + (fibonacciSequence 10).getD 4 0) % 2 ^ 64 :=
  ⟨fibonacciSequence_correct.2.1 10 (by decide),
    fibonacciSequence_correct.2.2.1 10 (by decide),
    fibonacciSequence_correct.2.2.2.1 10 5 (by decide) (by decide)⟩

/-- One byte of the hash mixing cascade (lib.rs lines 342-347), on a 32-bit
accumulator modelled as a Nat below 2^32. -/
def hashStep (hash byte : Nat) : Nat :=
  let h1 := (hash * 31 + byte) % 2 ^ 32
  let h2 := h1 ^^^ (h1 >>> 16)
  let h3 := (h2 * 0x85ebca6b) % 2 ^ 32
  let h4 := h3 ^^^ (h3 >>> 13)
  let h5 := (h4 * 0xc2b2ae35) % 2 ^ 32
  h5 ^^^ (h5 >>> 16)

/-- The outer repetition loop of `hash_computation` (lib.rs lines 340-349):
fold the whole byte sequence into the accumulator, `iterations` times. -/
def hashLoop (bytes : List Nat) : Nat → Nat → Nat
  | 0, hash => hash
  | k + 1, hash => hashLoop bytes k (bytes.foldl hashStep hash)

/-- `hash_computation` (lib.rs lines 334-352): `data` is the UTF-8 byte
sequence of the input text, the accumulator starts at 0. -/
def hashComputation (data : List Nat) (iterations : Nat) : Nat :=
  hashLoop data iterations 0

theorem hashLoop_nil (k hash : Nat) : hashLoop [] k hash = hash := by
  induction k with
  | zero => rfl
  | succ k ih => simpa [hashLoop] using ih

/-- C10: whenever the iteration count is zero or the input text is empty,
the mixing loop body never runs and `hash_computation` returns the initial
accumulator 0 exactly. -/
theorem hashComputation_zero :
    (∀ data : List Nat, hashComputation data 0 = 0) ∧
    (∀ iterations : Nat, hashComputation [] iterations = 0) := by
  constructor
  · intro data
    rfl
  · intro iterations
    exact hashLoop_nil iterations 0

/-- Upward-scanning helper for the floor square root: advance k while
(k+1)² still fits under n; `fuel` is a structural bound on the scan. -/
def isqrtGo (n : Nat) : Nat → Nat → Nat
  | 0, k => k
  | fuel + 1, k => if (k + 1) * (k + 1) ≤ n then isqrtGo n fuel (k + 1) else k

/-- Floor square root, structurally computable.  Models
`(limit as f64).sqrt() as u32` in `prime_sieve` (lib.rs line 253): the f64
conversion of a u32 is exact, and truncating the correctly rounded f64
square root of such a value gives exactly the integer square root. -/
def isqrt (n : Nat) : Nat := isqrtGo n n 0

/-- The inner marking loop of `prime_sieve` (lib.rs lines 257-261): from
j = i², mark multiples as composite while j ≤ limit; `j += i` is wrapping
u32 addition.  `fuel` bounds the iterations the model runs: the j sequence
is a pure rotation mod 2^32, so within 2^32 steps the Rust loop either
exits or revisits a state, and `none` (fuel exhausted) models a loop that
never exits.  Every write has j ≤ limit < table length, so the table is
kept as a plain function. -/
def markLoop (i limit : Nat) : Nat → Nat → (Nat → Bool) → Option (Nat → Bool)
  | fuel, j, tbl =>
    if j ≤ limit then
      match fuel with
      | 0 => none
      | fuel + 1 =>
        markLoop i limit fuel ((j + i) % 2 ^ 32) (fun k => if k = j then false else tbl k)
    else some tbl

/-- The outer loop of `prime_sieve` (lib.rs lines 255-263): i runs over
2..=sqrt_limit (`cnt` values of i remain); multiples of i are marked only
when i itself is still unmarked. -/
def sieveLoop (limit : Nat) : Nat → Nat → (Nat → Bool) → Option (Nat → Bool)
  | 0, _, tbl => some tbl
  | cnt + 1, i, tbl =>
    match (if tbl i then markLoop i limit (2 ^ 32) ((i * i) % 2 ^ 32) tbl else some tbl) with
    | none => none
    | some tbl2 => sieveLoop limit cnt (i + 1) tbl2

/-- `prime_sieve` (lib.rs lines 242-273), with release-mode (wrapping) u32
arithmetic.  `none` models a fatal error: at limit = 2^32 - 1 the
`limit + 1` allocation size wraps to 0 and `is_prime[0] = false` is an
out-of-bounds write, and `none` from the loops models a marking loop that
never exits after `j += i` wraps. -/
def primeSieve (limit : Nat) : Option (List Nat) :=
  if limit < 2 then some []
  else if (limit + 1) % 2 ^ 32 = 0 then none
  else
    let tbl0 : Nat → Bool := fun k => if k = 0 then false else if k = 1 then false else true
    match sieveLoop limit (isqrt limit - 1) 2 tbl0 with
    | none => none
    | some tbl => some ((List.range' 2 (limit - 1)).filter (fun k => tbl k))

theorem isqrtGo_eq (n : Nat) : ∀ fuel k, k * k ≤ n → Nat.sqrt n ≤ fuel + k →
    isqrtGo n fuel k = Nat.sqrt n := by
  intro fuel
  induction fuel with
  | zero =>
    intro k hk hle
    have h2 : k ≤ Nat.sqrt n := Nat.le_sqrt.mpr hk
    simp only [isqrtGo]
    omega
  | succ fuel ih =>
    intro k hk hle
    simp only [isqrtGo]
    by_cases h : (k + 1) * (k + 1) ≤ n
    · rw [if_pos h]
      exact ih (k + 1) h (by omega)
    · rw [if_neg h]
      have := Nat.eq_sqrt.mpr ⟨hk, lt_of_not_le h⟩
      omega

theorem isqrt_eq_sqrt (n : Nat) : isqrt n = Nat.sqrt n :=
  isqrtGo_eq n n 0 (by simp) (by simpa using Nat.sqrt_le_self n)

theorem markLoop_eq (i limit : Nat) (hi : 1 ≤ i) (hw : limit + i < 2 ^ 32) :
    ∀ fuel j tbl, limit + 1 ≤ fuel + j →
    markLoop i limit fuel j tbl
      = some (fun k => if j ≤ k ∧ k ≤ limit ∧ i ∣ (k - j) then false else tbl k) := by
  intro fuel
  induction fuel with
  | zero =>
    intro j tbl hfuel
    simp only [markLoop]
    rw [if_neg (by omega)]
    congr 1
    funext k
    rw [if_neg (by rintro ⟨h1, h2, h3⟩; omega)]
  | succ fuel ih =>
    intro j tbl hfuel
    simp only [markLoop]
    by_cases hj : j ≤ limit
    · rw [if_pos hj]
      have hmod : (j + i) % 2 ^ 32 = j + i := Nat.mod_eq_of_lt (by omega)
      rw [hmod, ih (j + i) _ (by omega)]
      congr 1
      funext k
      by_cases hk1 : j ≤ k ∧ k ≤ limit ∧ i ∣ (k - j)
      · rw [if_pos hk1]
        rcases hk1 with ⟨hjk, hkl, hdvd⟩
        by_cases hkj : k = j
        · subst hkj
          rw [if_neg (by rintro ⟨h1, h2, h3⟩; omega)]
          rw [if_pos rfl]
        · have hgt : j < k := lt_of_le_of_ne hjk (Ne.symm hkj)
          have hge : i ≤ k - j := Nat.le_of_dvd (by omega) hdvd
          have hki : j + i ≤ k := by omega
          have hdvd2 : i ∣ (k - (j + i)) := by
            have hsub : k - (j + i) = (k - j) - i := by omega
            rw [hsub]
            exact Nat.dvd_sub' hdvd dvd_rfl
          rw [if_pos ⟨hki, hkl, hdvd2⟩]
      · rw [if_neg hk1]
        have hnot : ¬ (j + i ≤ k ∧ k ≤ limit ∧ i ∣ (k - (j + i))) := by
          rintro ⟨h1, h2, h3⟩
          apply hk1
          refine ⟨by omega, h2, ?_⟩
          have heq : k - j = (k - (j + i)) + i := by omega
          rw [heq]
          exact Nat.dvd_add h3 dvd_rfl
        rw [if_neg hnot]
        have hkj : k ≠ j := by
          intro hkj
          subst hkj
          exact hk1 ⟨le_refl k, hj, by simp⟩
        rw [if_neg hkj]
    · rw [if_neg hj]
      congr 1
      funext k
      rw [if_neg (by rintro ⟨h1, h2, h3⟩; omega)]

/-- k has a small proper divisor found below `bound`: some d with
2 ≤ d < bound, d ∣ k and d² ≤ k.  After the outer sieve loop has processed
every i < bound, exactly the k ≥ 2 without such a divisor remain unmarked. -/
def sieveMarked (bound k : Nat) : Prop :=
  ∃ d, 2 ≤ d ∧ d < bound ∧ d ∣ k ∧ d * d ≤ k

theorem sieveMarked_succ (i k : Nat) (h2 : 2 ≤ i) :
    sieveMarked (i + 1) k ↔ sieveMarked i k ∨ (i ∣ k ∧ i * i ≤ k) := by
  constructor
  · rintro ⟨d, hd2, hdb, hdvd, hdsq⟩
    by_cases hdi : d = i
    · subst hdi
      exact Or.inr ⟨hdvd, hdsq⟩
    · exact Or.inl ⟨d, hd2, by omega, hdvd, hdsq⟩
  · rintro (⟨d, hd2, hdb, hdvd, hdsq⟩ | ⟨hdvd, hdsq⟩)
    · exact ⟨d, hd2, by omega, hdvd, hdsq⟩
    · exact ⟨i, h2, by omega, hdvd, hdsq⟩

theorem sieveMarked_skip (i k : Nat) (h2 : 2 ≤ i) (hm : sieveMarked i i) :
    sieveMarked (i + 1) k ↔ sieveMarked i k := by
  rw [sieveMarked_succ i k h2]
  constructor
  · rintro (h | ⟨hdvd, hdsq⟩)
    · exact h
    · rcases hm with ⟨d, hd2, hdb, hdvd2, hdsq2⟩
      refine ⟨d, hd2, hdb, hdvd2.trans hdvd, ?_⟩
      have hii : i ≤ i * i := by nlinarith
      omega
  · exact Or.inl

theorem sieveLoop_inv (limit : Nat) (hw : limit + Nat.sqrt limit < 2 ^ 32) :
    ∀ cnt i tbl, 2 ≤ i → cnt + i = Nat.sqrt limit + 1 →
    (∀ k, k ≤ limit → (tbl k = true ↔ 2 ≤ k ∧ ¬ sieveMarked i k)) →
    ∃ tbl2, sieveLoop limit cnt i tbl = some tbl2 ∧
      ∀ k, k ≤ limit → (tbl2 k = true ↔ 2 ≤ k ∧ ¬ sieveMarked (i + cnt) k) := by
  intro cnt
  induction cnt with
  | zero =>
    intro i tbl hi hcnt hinv
    exact ⟨tbl, rfl, by simpa using hinv⟩
  | succ cnt ih =>
    intro i tbl hi hcnt hinv
    have hile : i ≤ Nat.sqrt limit := by omega
    have hiisq : i * i ≤ limit := Nat.le_sqrt.mp hile
    have hil : i ≤ limit := le_trans hile (Nat.sqrt_le_self limit)
    by_cases htbl : tbl i = true
    · have hii : (i * i) % 2 ^ 32 = i * i := Nat.mod_eq_of_lt (by omega)
      have hml := markLoop_eq i limit (by omega) (by omega) (2 ^ 32) (i * i) tbl (by omega)
      have hstep : sieveLoop limit (cnt + 1) i tbl
          = sieveLoop limit cnt (i + 1)
            (fun k => if i * i ≤ k ∧ k ≤ limit ∧ i ∣ (k - i * i) then false else tbl k) := by
        simp only [sieveLoop]
        rw [if_pos htbl, hii, hml]
      rw [hstep]
      have hinv2 : ∀ k, k ≤ limit →
          ((fun k => if i * i ≤ k ∧ k ≤ limit ∧ i ∣ (k - i * i) then false else tbl k) k
            = true ↔ 2 ≤ k ∧ ¬ sieveMarked (i + 1) k) := by
        intro k hk
        rw [sieveMarked_succ i k hi]
        have hiff : (i * i ≤ k ∧ k ≤ limit ∧ i ∣ (k - i * i)) ↔ (i ∣ k ∧ i * i ≤ k) := by
          constructor
          · rintro ⟨h1, h2, h3⟩
            refine ⟨?_, h1⟩
            have heq : k = (k - i * i) + i * i := by omega
            rw [heq]
            exact Nat.dvd_add h3 (dvd_mul_right i i)
          · rintro ⟨h1, h2⟩
            exact ⟨h2, hk, Nat.dvd_sub' h1 (dvd_mul_right i i)⟩
        by_cases hc : i * i ≤ k ∧ k ≤ limit ∧ i ∣ (k - i * i)
        · show (if i * i ≤ k ∧ k ≤ limit ∧ i ∣ (k - i * i) then false else tbl k) = true ↔ _
          rw [if_pos hc]
          constructor
          · intro hfalse
            exact absurd hfalse (by simp)
          · rintro ⟨hk2, hnm⟩
            exact ((hnm (Or.inr (hiff.mp hc))).elim)
        · show (if i * i ≤ k ∧ k ≤ limit ∧ i ∣ (k - i * i) then false else tbl k) = true ↔ _
          rw [if_neg hc]
          rw [hinv k hk]
          have hnc : ¬ (i ∣ k ∧ i * i ≤ k) := fun h => hc (hiff.mpr h)
          constructor
          · rintro ⟨hk2, hnm⟩
            exact ⟨hk2, fun h => h.elim hnm hnc⟩
          · rintro ⟨hk2, hnm⟩
            exact ⟨hk2, fun h => hnm (Or.inl h)⟩
      rcases ih (i + 1) _ (by omega) (by omega) hinv2 with ⟨tbl2, hrun, hinv3⟩
      refine ⟨tbl2, hrun, ?_⟩
      intro k hk
      rw [hinv3 k hk]
      have harith : i + 1 + cnt = i + (cnt + 1) := by omega
      rw [harith]
    · have hstep : sieveLoop limit (cnt + 1) i tbl = sieveLoop limit cnt (i + 1) tbl := by
        simp only [sieveLoop]
        rw [if_neg htbl]
      rw [hstep]
      have hmii : sieveMarked i i := by
        by_contra hnm
        exact htbl ((hinv i hil).mpr ⟨hi, hnm⟩)
      have hinv2 : ∀ k, k ≤ limit → (tbl k = true ↔ 2 ≤ k ∧ ¬ sieveMarked (i + 1) k) := by
        intro k hk
        rw [hinv k hk, sieveMarked_skip i k hi hmii]
      rcases ih (i + 1) tbl (by omega) (by omega) hinv2 with ⟨tbl2, hrun, hinv3⟩
      refine ⟨tbl2, hrun, ?_⟩
      intro k hk
      rw [hinv3 k hk]
      have harith : i + 1 + cnt = i + (cnt + 1) := by omega
      rw [harith]

theorem not_sieveMarked_iff_prime (limit k : Nat) (h2 : 2 ≤ k) (hk : k ≤ limit) :
    ¬ sieveMarked (Nat.sqrt limit + 1) k ↔ Nat.Prime k := by
  constructor
  · intro hnm
    by_contra hnp
    apply hnm
    have hmf := Nat.minFac_prime (show k ≠ 1 by omega)
    have hsq : Nat.minFac k ^ 2 ≤ k := Nat.minFac_sq_le_self (by omega) hnp
    have hdd : Nat.minFac k * Nat.minFac k ≤ k := by
      rw [← Nat.pow_two]
      exact hsq
    have hle : Nat.minFac k ≤ Nat.sqrt limit := Nat.le_sqrt.mpr (le_trans hdd hk)
    exact ⟨Nat.minFac k, hmf.two_le, by omega, Nat.minFac_dvd k, hdd⟩
  · rintro hp ⟨d, hd2, hdb, hdvd, hdsq⟩
    rcases Nat.Prime.eq_one_or_self_of_dvd hp d hdvd with h1 | h1
    · omega
    · subst h1
      have h3 : 2 * d ≤ d * d := by nlinarith
      omega

theorem primeSieve_eq (limit : Nat) (hw : limit + Nat.sqrt limit < 2 ^ 32) :
    primeSieve limit
      = some ((List.range' 2 (limit - 1)).filter (fun k => decide (Nat.Prime k))) := by
  by_cases h2 : limit < 2
  · unfold primeSieve
    rw [if_pos h2]
    have hz : limit - 1 = 0 := by omega
    rw [hz]
    rfl
  · unfold primeSieve
    rw [if_neg h2]
    have hs1 : 1 ≤ Nat.sqrt limit := Nat.sqrt_pos.mpr (by omega)
    have hlt : limit + 1 < 2 ^ 32 := by omega
    rw [if_neg (show ¬ (limit + 1) % 2 ^ 32 = 0 by omega)]
    have hinv0 : ∀ k, k ≤ limit →
        ((fun k => if k = 0 then false else if k = 1 then false else true) k = true
          ↔ 2 ≤ k ∧ ¬ sieveMarked 2 k) := by
      intro k hk
      constructor
      · intro h
        by_cases h0 : k = 0
        · subst h0
          simp at h
        · by_cases h1 : k = 1
          · subst h1
            simp at h
          · refine ⟨by omega, ?_⟩
            rintro ⟨d, hd2, hdb, _, _⟩
            omega
      · rintro ⟨hk2, _⟩
        show (if k = 0 then false else if k = 1 then false else true) = true
        rw [if_neg (by omega), if_neg (by omega)]
    rw [isqrt_eq_sqrt]
    rcases sieveLoop_inv limit hw (Nat.sqrt limit - 1) 2 _ (le_refl 2) (by omega) hinv0
      with ⟨tbl2, hrun, hinv⟩
    show (match sieveLoop limit (Nat.sqrt limit - 1) 2
        (fun k => if k = 0 then false else if k = 1 then false else true) with
      | none => none
      | some tbl => some ((List.range' 2 (limit - 1)).filter (fun k => tbl k)))
      = some ((List.range' 2 (limit - 1)).filter (fun k => decide (Nat.Prime k)))
    rw [hrun]
    show some ((List.range' 2 (limit - 1)).filter (fun k => tbl2 k)) = _
    congr 1
    apply List.filter_congr
    intro k hkmem
    rw [List.mem_range'_1] at hkmem
    have hk2 : 2 ≤ k := hkmem.1
    have hkl : k ≤ limit := by omega
    have hfin : 2 + (Nat.sqrt limit - 1) = Nat.sqrt limit + 1 := by omega
    have hiff := hinv k hkl
    rw [hfin, not_sieveMarked_iff_prime limit k hk2 hkl] at hiff
    by_cases hp : Nat.Prime k
    · rw [hiff.mpr ⟨hk2, hp⟩, decide_eq_true hp]
    · have hf : tbl2 k = false := by
        cases htb : tbl2 k
        · rfl
        · exact absurd (hiff.mp htb).2 hp
      rw [hf, decide_eq_false hp]

/-- C4 (amended): for every limit with limit + ⌊√limit⌋ < 2^32,
`prime_sieve` returns exactly the prime numbers ≤ limit, each once, in
strictly ascending order; for limit < 2 it returns the empty sequence, and
`prime_sieve(1) = []`, `prime_sieve(10) = [2,3,5,7]`.  (Without the bound
the original claim fails: at limit = 2^32 - 1 the function faults and
returns no sequence at all — see the counterexample theorem.) -/
theorem primeSieve_correct :
    (∀ limit, limit + isqrt limit < 2 ^ 32 →
      ∃ l, primeSieve limit = some l ∧ (∀ k, k ∈ l ↔ Nat.Prime k ∧ k ≤ limit) ∧
        l.Pairwise (fun a b => a < b) ∧ (limit < 2 → l = [])) ∧
    primeSieve 1 = some [] ∧ primeSieve 10 = some [2, 3, 5, 7] := by
  refine ⟨?_, by decide, by decide⟩
  intro limit hw
  rw [isqrt_eq_sqrt] at hw
  refine ⟨_, primeSieve_eq limit hw, ?_, ?_, ?_⟩
  · intro k
    rw [List.mem_filter, List.mem_range'_1]
    constructor
    · rintro ⟨⟨hk2, hklt⟩, hdec⟩
      exact ⟨of_decide_eq_true hdec, by omega⟩
    · rintro ⟨hp, hkl⟩
      have hk2 := hp.two_le
      exact ⟨⟨hk2, by omega⟩, decide_eq_true hp⟩
  · exact List.Pairwise.filter _ (List.pairwise_lt_range' 2 (limit - 1))
  · intro hsmall
    have hz : limit - 1 = 0 := by omega
    rw [hz]
    rfl

theorem primeSieve_correct_witness :
    ∃ l, primeSieve 10 = some l ∧ (∀ k, k ∈ l ↔ Nat.Prime k ∧ k ≤ 10) ∧
      l.Pairwise (fun a b => a < b) ∧ (10 < 2 → l = []) :=
  primeSieve_correct.1 10 (by decide)

/-- C4 counterexample: at limit = 2^32 - 1 (a valid u32 limit),
`prime_sieve` returns no sequence at all — the claim "for every limit it
returns exactly the primes ≤ limit" fails there. -/
theorem primeSieve_not_primes_at_max : (primeSieve 4294967295).isSome = false := by decide

/-- C3 (amended): the only kernel in the model that can fault is
`prime_sieve` (every other kernel is a total function by construction);
`prime_sieve` returns a value for every limit with limit + ⌊√limit⌋ < 2^32. -/
theorem primeSieve_no_fatal_error (limit : Nat) (h : limit + isqrt limit < 2 ^ 32) :
    (primeSieve limit).isSome = true := by
  rw [isqrt_eq_sqrt] at h
  rw [primeSieve_eq limit h]
  rfl

theorem primeSieve_no_fatal_error_witness : (primeSieve 10).isSome = true :=
  primeSieve_no_fatal_error 10 (by decide)

/-- C3 counterexample: `prime_sieve` faults at limit = 2^32 - 1, inside its
documented u32 domain: the u32 allocation size limit + 1 wraps to 0, the
table is empty, and `is_prime[0] = false` is an out-of-bounds write — the
model returns `none`. -/
theorem primeSieve_fatal_at_max : primeSieve 4294967295 = none := by decide
